import Mathlib

/-!
# Verification of `gaussian_integral.py`

A shallow embedding of the repository's `src/sympy/gaussian_integral.py`,
which evaluates the n-dimensional Gaussian integral by building the
Cartesian-to-spherical change of coordinates symbolically, taking the
determinant of its Jacobian, and integrating `exp(-r^2)` times that
determinant over the spherical coordinate domain.

The program orchestrates calls into the sympy computer-algebra engine.
We model the symbolic expressions the program builds by an explicit
expression type `Expr` with a denotation `Expr.eval` into `ℝ`; the engine
operations are modelled as follows:

* symbol creation (`Symbol`, `symbols`) — the `Var` type of variables;
* `diff` / `Matrix.jacobian` — structural symbolic differentiation
  `Expr.diff`, which mirrors the usual derivative rules the engine applies;
* `Matrix.det` — `Matrix.det` over `ℝ` applied to the evaluated entries;
* `simplify` — the identity on denotations (the spec, §4.3, defines
  correctness of the determinant by algebraic equivalence, not syntactic
  form, so the simplified determinant is modelled by its value function);
* `integrate` — genuine (improper / interval) Lebesgue integration of the
  denotation, innermost limit first, as `integrate(f, l1, l2, ...)` does.
-/

open MeasureTheory Real

namespace GaussianIntegralPy

/-- The symbolic variables the program creates: the radial symbol `r` and
the angular symbols `phi0, phi1, ...` (`phis`). -/
inductive Var : Type
  | r : Var
  | phi (i : ℕ) : Var
  deriving DecidableEq

/-- Symbolic expressions, covering exactly the constructions
`gaussian_integral.py` performs on sympy expressions: integer constants
(arising from differentiation), variables, sums, products, negation and
the trigonometric functions sin and cos. -/
inductive Expr : Type
  | const (z : ℤ) : Expr
  | var (v : Var) : Expr
  | add (a b : Expr) : Expr
  | mul (a b : Expr) : Expr
  | neg (a : Expr) : Expr
  | sin (a : Expr) : Expr
  | cos (a : Expr) : Expr
  deriving DecidableEq

/-- Denotation of a symbolic expression under an assignment of real
values to the variables. -/
noncomputable def Expr.eval (env : Var → ℝ) : Expr → ℝ
  | Expr.const z => (z : ℝ)
  | Expr.var v => env v
  | Expr.add a b => a.eval env + b.eval env
  | Expr.mul a b => a.eval env * b.eval env
  | Expr.neg a => -(a.eval env)
  | Expr.sin a => Real.sin (a.eval env)
  | Expr.cos a => Real.cos (a.eval env)

/-- Symbolic differentiation with respect to a variable: the standard
rules sympy's `diff` applies to expressions of this shape. -/
def Expr.diff (v : Var) : Expr → Expr
  | Expr.const _ => Expr.const 0
  | Expr.var w => if w = v then Expr.const 1 else Expr.const 0
  | Expr.add a b => Expr.add (a.diff v) (b.diff v)
  | Expr.mul a b => Expr.add (Expr.mul (a.diff v) b) (Expr.mul a (b.diff v))
  | Expr.neg a => Expr.neg (a.diff v)
  | Expr.sin a => Expr.mul (Expr.cos a) (a.diff v)
  | Expr.cos a => Expr.neg (Expr.mul (Expr.sin a) (a.diff v))

/-! ## The embedded program

Each of the following definitions translates one piece of
`gaussian_integral.py`. -/

/-- `self.phis`, as set by `__init__`: `(phi0,)` when `n == 1`, and
`symbols('phi0:n-1') = (phi0, ..., phi_{n-2})` otherwise. -/
def phisList (n : ℕ) : List Var :=
  if n = 1 then [Var.phi 0] else (List.range (n - 1)).map Var.phi

/-- The ordered variable list `[r, phi0, ..., phi_{n-2}]` built in
`jacobian` (`syms = list(self.phis); syms.insert(0, self.r)`). -/
def symsList (n : ℕ) : List Var :=
  Var.r :: phisList n

/-- One iteration of the loop body of `_cartesian_to_spherical`:
`old = x_coords[i]; x_coords[i] = old*cos(phis[i]); x_coords.append(old*sin(phis[i]))`. -/
def sphericalStep (xs : List Expr) (i : ℕ) : List Expr :=
  let old := xs.getD i (Expr.const 0)
  (xs.set i (Expr.mul old (Expr.cos (Expr.var (Var.phi i))))) ++
    [Expr.mul old (Expr.sin (Expr.var (Var.phi i)))]

/-- `_cartesian_to_spherical`: starts from
`[r*cos(phi0), r*sin(phi0)]` and runs the loop body for
`i in range(1, n-1)`. -/
def cartesianToSpherical (n : ℕ) : List Expr :=
  (List.range' 1 (n - 2)).foldl sphericalStep
    [Expr.mul (Expr.var Var.r) (Expr.cos (Expr.var (Var.phi 0))),
     Expr.mul (Expr.var Var.r) (Expr.sin (Expr.var (Var.phi 0)))]

/-- `jacobian` as a table of symbolic entries:
`x_coords.jacobian(syms)` has one row per parametrization component and
one column per variable of `syms`, each entry being the symbolic partial
derivative of the component with respect to the variable. -/
def jacobianEntries (n : ℕ) : List (List Expr) :=
  (cartesianToSpherical n).map fun c => (symsList n).map fun v => c.diff v

/-- The number of parametrization components (= rows and columns of the
Jacobian): `2` when `n == 1`, else `n`. -/
def numCoords (n : ℕ) : ℕ :=
  if n = 1 then 2 else n

/-- The `(i, j)` entry of the Jacobian, evaluated under `env`. -/
noncomputable def entry (n : ℕ) (env : Var → ℝ) (i j : ℕ) : ℝ :=
  Expr.eval env (((jacobianEntries n).getD i []).getD j (Expr.const 0))

/-- The Jacobian matrix of `jacobian`, with entries evaluated under
`env`. -/
noncomputable def jacobianMatrix (n : ℕ) (env : Var → ℝ) :
    Matrix (Fin (numCoords n)) (Fin (numCoords n)) ℝ :=
  Matrix.of fun i j => entry n env i.val j.val

/-- `jacobian_det`: the determinant of the Jacobian.  The trailing
`.simplify()` is an external-engine call that preserves the denotation,
so the simplified determinant is modelled by its value under `env`. -/
noncomputable def jacobian_det (n : ℕ) (env : Var → ℝ) : ℝ :=
  (jacobianMatrix n env).det

/-- Upper integration bounds appearing in `doit`: a finite bound or
`oo`. -/
inductive UpperBound : Type
  | fin (x : ℝ) : UpperBound
  | inf : UpperBound

/-- One integration limit triple `(variable, lower, upper)`. -/
def Limit : Type := Var × ℝ × UpperBound

/-- `limits_of_int` as built in `doit`:
`[(r, 0, oo), (phis[-1], 0, 2*pi)]` followed by `(phi, 0, pi)` for each
`phi in phis[:-1]`. -/
noncomputable def limitsOfInt (n : ℕ) : List Limit :=
  (Var.r, 0, UpperBound.inf) ::
    ((phisList n).getLastD (Var.phi 0), 0, UpperBound.fin (2 * π)) ::
      (phisList n).dropLast.map fun p => (p, 0, UpperBound.fin π)

/-- The integrand of `doit`: `exp(-r**2) * self.jacobian_det()`. -/
noncomputable def integrand (n : ℕ) (env : Var → ℝ) : ℝ :=
  Real.exp (-(env Var.r) ^ 2) * jacobian_det n env

/-- Integration over a single limit triple: the engine integrates the
named variable over `[lower, upper]` (an improper integral over
`(lower, ∞)` when the upper bound is `oo`), leaving a function of the
remaining variables. -/
noncomputable def integrateOne (f : (Var → ℝ) → ℝ) : Limit → (Var → ℝ) → ℝ
  | (v, a, UpperBound.inf), env => ∫ t in Set.Ioi a, f (Function.update env v t)
  | (v, a, UpperBound.fin b), env => ∫ t in a..b, f (Function.update env v t)

/-- `integrate(f, l1, l2, ...)`: the limits are applied in order, the
first being the innermost integral. -/
noncomputable def integrateAll (f : (Var → ℝ) → ℝ) (ls : List Limit) : (Var → ℝ) → ℝ :=
  ls.foldl integrateOne f

/-- `doit`: evaluate the nested integral; if `n == 1`, square-root the
result.  (The fully integrated expression is a closed constant; it is
read off at the all-zero assignment.) -/
noncomputable def doit (n : ℕ) : ℝ :=
  let i := integrateAll (integrand n) (limitsOfInt n) fun _ => 0
  if n = 1 then Real.sqrt i else i

/-- The state set by `__init__`: the dimension together with the radial
and angular symbols. -/
structure GaussianState : Type where
  n : ℕ
  rSym : Var
  phis : List Var
  deriving DecidableEq

/-- `__init__`: given the (integer) argument `n`, either raise
`ValueError` (modelled by `none`) when `n < 1`, or produce the
constructed instance state. -/
def initGaussian (n : ℤ) : Option GaussianState :=
  if n < 1 then none
  else some ⟨n.toNat, Var.r, phisList n.toNat⟩

/-- The method `jacobian_det` in state-passing form: the Python method
body contains no assignment to `self`, so the state it leaves behind is
the state it received. -/
noncomputable def jacobianDetMethod (s : GaussianState) (env : Var → ℝ) : ℝ × GaussianState :=
  (jacobian_det s.n env, s)

/-- The method `doit` in state-passing form: the Python method body
contains no assignment to `self`, so the state it leaves behind is the
state it received. -/
noncomputable def doitMethod (s : GaussianState) : ℝ × GaussianState :=
  (doit s.n, s)


/-! ## Closed form of the parametrization

The loop of `_cartesian_to_spherical` produces, syntactically, the
coordinates `chain k * cos(phi k)` for `k < m+1` followed by the final
coordinate `chain (m+1)`, where `chain k = r * sin(phi0) * ... *
sin(phi_{k-1})`. -/

/-- The product `r * sin(phi0) * ... * sin(phi_{k-1})`, exactly as the
loop builds it syntactically. -/
def chain : ℕ → Expr
  | 0 => Expr.var Var.r
  | k + 1 => Expr.mul (chain k) (Expr.sin (Expr.var (Var.phi k)))

/-- The `k`-th non-final coordinate `chain k * cos(phi k)`. -/
def xExpr (k : ℕ) : Expr :=
  Expr.mul (chain k) (Expr.cos (Expr.var (Var.phi k)))

theorem set_append_singleton {α : Type} (l : List α) (a b : α) :
    (l ++ [a]).set l.length b = l ++ [b] := by
  induction l with
  | nil => rfl
  | cons x xs ih => simp [List.set, ih]

theorem getD_append_singleton {α : Type} (l : List α) (a d : α) :
    (l ++ [a]).getD l.length d = a := by
  induction l with
  | nil => rfl
  | cons x xs ih => exact ih

theorem sphericalStep_concat (l : List Expr) (e : Expr) :
    sphericalStep (l ++ [e]) l.length =
      (l ++ [Expr.mul e (Expr.cos (Expr.var (Var.phi l.length)))]) ++
        [Expr.mul e (Expr.sin (Expr.var (Var.phi l.length)))] := by
  unfold sphericalStep
  dsimp only
  rw [getD_append_singleton, set_append_singleton]

/-- Closed form of `_cartesian_to_spherical` for dimension `m + 2`. -/
theorem cartesianToSpherical_closedForm (m : ℕ) :
    cartesianToSpherical (m + 2) =
      (List.range (m + 1)).map xExpr ++ [chain (m + 1)] := by
  induction m with
  | zero => rfl
  | succ k ih =>
    have h1 : cartesianToSpherical (k + 3) =
        sphericalStep (cartesianToSpherical (k + 2)) (k + 1) := by
      show (List.range' 1 (k + 1)).foldl sphericalStep _ = _
      rw [List.range'_1_concat, List.foldl_append, Nat.add_comm 1 k]
      rfl
    have hlen : ((List.range (k + 1)).map xExpr).length = k + 1 := by simp
    have hstep := sphericalStep_concat ((List.range (k + 1)).map xExpr) (chain (k + 1))
    rw [hlen] at hstep
    rw [h1, ih, hstep, List.range_succ (k + 1)]
    simp only [List.map_append, List.map_cons, List.map_nil]
    rfl

theorem cartesianToSpherical_one :
    cartesianToSpherical 1 = cartesianToSpherical 2 := rfl

theorem cartesianToSpherical_length (m : ℕ) :
    (cartesianToSpherical (m + 2)).length = m + 2 := by
  rw [cartesianToSpherical_closedForm]; simp

theorem phisList_two_add (m : ℕ) :
    phisList (m + 2) = (List.range (m + 1)).map Var.phi := by
  simp [phisList]

/-! ## Evaluated Jacobian entries -/

/-- All angular variables occurring in `e` have index below `b`. -/
def PhiBound (b : ℕ) : Expr → Prop
  | Expr.const _ => True
  | Expr.var Var.r => True
  | Expr.var (Var.phi i) => i < b
  | Expr.add a c => PhiBound b a ∧ PhiBound b c
  | Expr.mul a c => PhiBound b a ∧ PhiBound b c
  | Expr.neg a => PhiBound b a
  | Expr.sin a => PhiBound b a
  | Expr.cos a => PhiBound b a

theorem phiBound_chain {b : ℕ} : ∀ {k : ℕ}, k ≤ b → PhiBound b (chain k)
  | 0, _ => trivial
  | _ + 1, h => ⟨phiBound_chain (Nat.le_of_succ_le h), h⟩

theorem phiBound_xExpr {b k : ℕ} (h : k < b) : PhiBound b (xExpr k) :=
  ⟨phiBound_chain h.le, h⟩

/-- The symbolic derivative of an expression with respect to an angular
variable that does not occur in it evaluates to `0`. -/
theorem eval_diff_eq_zero (env : Var → ℝ) {b k : ℕ} (hbk : b ≤ k) :
    ∀ e : Expr, PhiBound b e → Expr.eval env (e.diff (Var.phi k)) = 0
  | Expr.const _, _ => by simp [Expr.diff, Expr.eval]
  | Expr.var Var.r, _ => by simp [Expr.diff, Expr.eval]
  | Expr.var (Var.phi i), hb => by
      have hb2 : i < b := hb
      have h : i ≠ k := Nat.ne_of_lt (lt_of_lt_of_le hb2 hbk)
      simp [Expr.diff, Expr.eval, h]
  | Expr.add a c, hb => by
      simp [Expr.diff, Expr.eval, eval_diff_eq_zero env hbk a hb.1,
        eval_diff_eq_zero env hbk c hb.2]
  | Expr.mul a c, hb => by
      simp [Expr.diff, Expr.eval, eval_diff_eq_zero env hbk a hb.1,
        eval_diff_eq_zero env hbk c hb.2]
  | Expr.neg a, hb => by
      simp [Expr.diff, Expr.eval, eval_diff_eq_zero env hbk a hb]
  | Expr.sin a, hb => by
      simp [Expr.diff, Expr.eval, eval_diff_eq_zero env hbk a hb]
  | Expr.cos a, hb => by
      simp [Expr.diff, Expr.eval, eval_diff_eq_zero env hbk a hb]

/-- Denotation of `chain k`. -/
theorem eval_chain (env : Var → ℝ) :
    ∀ k : ℕ, Expr.eval env (chain k) =
      env Var.r * ∏ j in Finset.range k, Real.sin (env (Var.phi j))
  | 0 => by simp [chain, Expr.eval]
  | k + 1 => by
      rw [chain]
      show Expr.eval env (chain k) * Real.sin (env (Var.phi k)) = _
      rw [eval_chain env k, Finset.prod_range_succ, mul_assoc]

theorem getD_map_lt {α β : Type} (f : α → β) (l : List α) (i : ℕ)
    (hi : i < l.length) (d : β) (d0 : α) :
    (l.map f).getD i d = f (l.getD i d0) := by
  rw [List.getD_eq_getElem?_getD, List.getD_eq_getElem?_getD,
    List.getElem?_map, List.getElem?_eq_getElem hi]
  rfl

/-- The coordinate expression in row `i` of the Jacobian. -/
def coordAt (n i : ℕ) : Expr :=
  (cartesianToSpherical n).getD i (Expr.const 0)

/-- The variable labelling column `j` of the Jacobian. -/
def symVar (n j : ℕ) : Var :=
  (symsList n).getD j Var.r

theorem symsList_length (m : ℕ) : (symsList (m + 2)).length = m + 2 := by
  simp [symsList, phisList_two_add]

theorem coordAt_lt (m : ℕ) {i : ℕ} (hi : i < m + 1) :
    coordAt (m + 2) i = xExpr i := by
  unfold coordAt
  rw [cartesianToSpherical_closedForm, List.getD_eq_getElem?_getD,
    List.getElem?_append_left (by simpa using hi),
    List.getElem?_map, List.getElem?_range hi]
  rfl

theorem coordAt_last (m : ℕ) : coordAt (m + 2) (m + 1) = chain (m + 1) := by
  have h := getD_append_singleton ((List.range (m + 1)).map xExpr)
    (chain (m + 1)) (Expr.const 0)
  rw [List.length_map, List.length_range] at h
  unfold coordAt
  rw [cartesianToSpherical_closedForm]
  exact h

theorem symVar_zero (m : ℕ) : symVar (m + 2) 0 = Var.r := rfl

theorem symVar_succ (m : ℕ) {j : ℕ} (hj : j < m + 1) :
    symVar (m + 2) (j + 1) = Var.phi j := by
  unfold symVar symsList
  rw [phisList_two_add]
  show ((List.range (m + 1)).map Var.phi).getD j Var.r = Var.phi j
  rw [List.getD_eq_getElem?_getD, List.getElem?_map, List.getElem?_range hj]
  rfl

/-- Unfolding of `entry` to the symbolic derivative of the row
coordinate with respect to the column variable. -/
theorem entry_eq (m : ℕ) (env : Var → ℝ) {i j : ℕ}
    (hi : i < m + 2) (hj : j < m + 2) :
    entry (m + 2) env i j =
      Expr.eval env ((coordAt (m + 2) i).diff (symVar (m + 2) j)) := by
  unfold entry jacobianEntries
  rw [getD_map_lt _ _ i (by rw [← cartesianToSpherical_length m] at hi; exact hi)
      [] (Expr.const 0),
    getD_map_lt _ _ j (by rw [← symsList_length m] at hj; exact hj)
      (Expr.const 0) Var.r]
  rfl

/-! ## Relations between the Jacobian entries of consecutive dimensions -/

theorem eval_diff_mul_cos_other (env : Var → ℝ) (a : Expr) (p : ℕ) (v : Var)
    (hv : v ≠ Var.phi p) :
    Expr.eval env ((Expr.mul a (Expr.cos (Expr.var (Var.phi p)))).diff v) =
      Real.cos (env (Var.phi p)) * Expr.eval env (a.diff v) := by
  have h : Var.phi p ≠ v := fun hh => hv hh.symm
  simp [Expr.diff, Expr.eval, h]
  ring

theorem eval_diff_mul_sin_other (env : Var → ℝ) (a : Expr) (p : ℕ) (v : Var)
    (hv : v ≠ Var.phi p) :
    Expr.eval env ((Expr.mul a (Expr.sin (Expr.var (Var.phi p)))).diff v) =
      Real.sin (env (Var.phi p)) * Expr.eval env (a.diff v) := by
  have h : Var.phi p ≠ v := fun hh => hv hh.symm
  simp [Expr.diff, Expr.eval, h]
  ring

theorem eval_diff_mul_cos_self (env : Var → ℝ) (a : Expr) {b p : ℕ}
    (hb : PhiBound b a) (hbp : b ≤ p) :
    Expr.eval env ((Expr.mul a (Expr.cos (Expr.var (Var.phi p)))).diff (Var.phi p)) =
      -(Expr.eval env a * Real.sin (env (Var.phi p))) := by
  simp [Expr.diff, Expr.eval, eval_diff_eq_zero env hbp a hb]

theorem eval_diff_mul_sin_self (env : Var → ℝ) (a : Expr) {b p : ℕ}
    (hb : PhiBound b a) (hbp : b ≤ p) :
    Expr.eval env ((Expr.mul a (Expr.sin (Expr.var (Var.phi p)))).diff (Var.phi p)) =
      Expr.eval env a * Real.cos (env (Var.phi p)) := by
  simp [Expr.diff, Expr.eval, eval_diff_eq_zero env hbp a hb]

theorem symVar_step (m : ℕ) {j : ℕ} (hj : j < m + 2) :
    symVar (m + 3) j = symVar (m + 2) j := by
  cases j with
  | zero => rfl
  | succ j2 =>
      have a1 : symVar (m + 3) (j2 + 1) = Var.phi j2 := symVar_succ (m + 1) (by omega)
      have a2 : symVar (m + 2) (j2 + 1) = Var.phi j2 := symVar_succ m (by omega)
      rw [a1, a2]

theorem symVar_ne_phi (m : ℕ) {j : ℕ} (hj : j < m + 2) :
    symVar (m + 2) j ≠ Var.phi (m + 1) := by
  cases j with
  | zero =>
      rw [symVar_zero]
      intro h
      exact Var.noConfusion h
  | succ j2 =>
      rw [symVar_succ m (by omega)]
      intro h
      have := Var.phi.inj h
      omega

/-- Rows below the split row are unchanged when passing from dimension
`m + 2` to dimension `m + 3`. -/
theorem entry_step_top (m : ℕ) (env : Var → ℝ) {i j : ℕ}
    (hi : i < m + 1) (hj : j < m + 2) :
    entry (m + 3) env i j = entry (m + 2) env i j := by
  have e3 : entry (m + 3) env i j =
      Expr.eval env ((coordAt (m + 3) i).diff (symVar (m + 3) j)) :=
    entry_eq (m + 1) env (by omega) (by omega)
  have e2 : entry (m + 2) env i j =
      Expr.eval env ((coordAt (m + 2) i).diff (symVar (m + 2) j)) :=
    entry_eq m env (by omega) hj
  have c3 : coordAt (m + 3) i = xExpr i := coordAt_lt (m + 1) (by omega)
  have c2 : coordAt (m + 2) i = xExpr i := coordAt_lt m hi
  rw [e3, e2, c3, c2, symVar_step m hj]

/-- Rows below the split row have a zero entry in the new column. -/
theorem entry_step_top_lastcol (m : ℕ) (env : Var → ℝ) {i : ℕ} (hi : i < m + 1) :
    entry (m + 3) env i (m + 2) = 0 := by
  have e3 : entry (m + 3) env i (m + 2) =
      Expr.eval env ((coordAt (m + 3) i).diff (symVar (m + 3) (m + 2))) :=
    entry_eq (m + 1) env (by omega) (by omega)
  have c3 : coordAt (m + 3) i = xExpr i := coordAt_lt (m + 1) (by omega)
  have hs : symVar (m + 3) (m + 2) = Var.phi (m + 1) := symVar_succ (m + 1) (by omega)
  rw [e3, c3, hs]
  exact eval_diff_eq_zero env (le_refl (m + 1)) (xExpr i) (phiBound_xExpr hi)

/-- The cos-branch row is the old last row scaled by `cos(phi_{m+1})`. -/
theorem entry_step_cosRow (m : ℕ) (env : Var → ℝ) {j : ℕ} (hj : j < m + 2) :
    entry (m + 3) env (m + 1) j =
      Real.cos (env (Var.phi (m + 1))) * entry (m + 2) env (m + 1) j := by
  have e3 : entry (m + 3) env (m + 1) j =
      Expr.eval env ((coordAt (m + 3) (m + 1)).diff (symVar (m + 3) j)) :=
    entry_eq (m + 1) env (by omega) (by omega)
  have e2 : entry (m + 2) env (m + 1) j =
      Expr.eval env ((coordAt (m + 2) (m + 1)).diff (symVar (m + 2) j)) :=
    entry_eq m env (by omega) hj
  have c3 : coordAt (m + 3) (m + 1) = xExpr (m + 1) := coordAt_lt (m + 1) (by omega)
  rw [e3, e2, c3, coordAt_last m, symVar_step m hj]
  exact eval_diff_mul_cos_other env (chain (m + 1)) (m + 1) _ (symVar_ne_phi m hj)

theorem entry_step_cosRow_lastcol (m : ℕ) (env : Var → ℝ) :
    entry (m + 3) env (m + 1) (m + 2) =
      -(Expr.eval env (chain (m + 1)) * Real.sin (env (Var.phi (m + 1)))) := by
  have e3 : entry (m + 3) env (m + 1) (m + 2) =
      Expr.eval env ((coordAt (m + 3) (m + 1)).diff (symVar (m + 3) (m + 2))) :=
    entry_eq (m + 1) env (by omega) (by omega)
  have c3 : coordAt (m + 3) (m + 1) = xExpr (m + 1) := coordAt_lt (m + 1) (by omega)
  have hs : symVar (m + 3) (m + 2) = Var.phi (m + 1) := symVar_succ (m + 1) (by omega)
  rw [e3, c3, hs]
  exact eval_diff_mul_cos_self env (chain (m + 1))
    (phiBound_chain (le_refl (m + 1))) (le_refl (m + 1))

/-- The sin-branch row is the old last row scaled by `sin(phi_{m+1})`. -/
theorem entry_step_sinRow (m : ℕ) (env : Var → ℝ) {j : ℕ} (hj : j < m + 2) :
    entry (m + 3) env (m + 2) j =
      Real.sin (env (Var.phi (m + 1))) * entry (m + 2) env (m + 1) j := by
  have e3 : entry (m + 3) env (m + 2) j =
      Expr.eval env ((coordAt (m + 3) (m + 2)).diff (symVar (m + 3) j)) :=
    entry_eq (m + 1) env (by omega) (by omega)
  have e2 : entry (m + 2) env (m + 1) j =
      Expr.eval env ((coordAt (m + 2) (m + 1)).diff (symVar (m + 2) j)) :=
    entry_eq m env (by omega) hj
  have c3 : coordAt (m + 3) (m + 2) = chain (m + 2) := coordAt_last (m + 1)
  rw [e3, e2, c3, coordAt_last m, symVar_step m hj]
  exact eval_diff_mul_sin_other env (chain (m + 1)) (m + 1) _ (symVar_ne_phi m hj)

theorem entry_step_sinRow_lastcol (m : ℕ) (env : Var → ℝ) :
    entry (m + 3) env (m + 2) (m + 2) =
      Expr.eval env (chain (m + 1)) * Real.cos (env (Var.phi (m + 1))) := by
  have e3 : entry (m + 3) env (m + 2) (m + 2) =
      Expr.eval env ((coordAt (m + 3) (m + 2)).diff (symVar (m + 3) (m + 2))) :=
    entry_eq (m + 1) env (by omega) (by omega)
  have c3 : coordAt (m + 3) (m + 2) = chain (m + 2) := coordAt_last (m + 1)
  have hs : symVar (m + 3) (m + 2) = Var.phi (m + 1) := symVar_succ (m + 1) (by omega)
  rw [e3, c3, hs]
  exact eval_diff_mul_sin_self env (chain (m + 1))
    (phiBound_chain (le_refl (m + 1))) (le_refl (m + 1))

/-! ## Determinant of the Jacobian -/

/-- Laplace expansion along the last column for the "split last
coordinate" shape of matrix: the enlarged matrix keeps the first `m + 1`
rows (with a zero entry in the new column), replaces the old last row by
its cos-scaled copy (with `-(u*s)` in the new column) and appends its
sin-scaled copy (with `u*c` in the new column).  Its determinant is `u`
times the original one. -/
theorem det_split (m : ℕ) (f g : ℕ → ℕ → ℝ) (c s u : ℝ)
    (htop : ∀ i j, i < m + 1 → j < m + 2 → g i j = f i j)
    (htopz : ∀ i, i < m + 1 → g i (m + 2) = 0)
    (hrow1 : ∀ j, j < m + 2 → g (m + 1) j = c * f (m + 1) j)
    (hrow1z : g (m + 1) (m + 2) = -(u * s))
    (hrow2 : ∀ j, j < m + 2 → g (m + 2) j = s * f (m + 1) j)
    (hrow2z : g (m + 2) (m + 2) = u * c)
    (hcs : c ^ 2 + s ^ 2 = 1) :
    (Matrix.of fun i j : Fin (m + 3) => g i.val j.val).det =
      u * (Matrix.of fun i j : Fin (m + 2) => f i.val j.val).det := by
  set F : Matrix (Fin (m + 2)) (Fin (m + 2)) ℝ :=
    Matrix.of fun i j => f i.val j.val with hF
  set G : Matrix (Fin (m + 3)) (Fin (m + 3)) ℝ :=
    Matrix.of fun i j => g i.val j.val with hG
  set a : Fin (m + 3) := ⟨m + 1, by omega⟩ with ha
  have hab : a ≠ Fin.last (m + 2) := by
    intro h
    have := congrArg Fin.val h
    simp [ha, Fin.last] at this
  have hSB : G.submatrix (Fin.last (m + 2)).succAbove (Fin.last (m + 2)).succAbove =
      F.updateRow (Fin.last (m + 1)) (c • F (Fin.last (m + 1))) := by
    funext p q
    have hsa : (Fin.last (m + 2)).succAbove p = p.castSucc := Fin.succAbove_last_apply p
    have hsb : (Fin.last (m + 2)).succAbove q = q.castSucc := Fin.succAbove_last_apply q
    rw [Matrix.submatrix_apply, hsa, hsb, Matrix.updateRow_apply]
    by_cases hp : p = Fin.last (m + 1)
    · rw [if_pos hp, hp, Pi.smul_apply, smul_eq_mul]
      show g (m + 1) q.val = c * f (m + 1) q.val
      exact hrow1 q.val q.isLt
    · rw [if_neg hp]
      show g p.val q.val = f p.val q.val
      exact htop p.val q.val (Fin.val_lt_last hp) q.isLt
  have hSA : G.submatrix a.succAbove (Fin.last (m + 2)).succAbove =
      F.updateRow (Fin.last (m + 1)) (s • F (Fin.last (m + 1))) := by
    funext p q
    have hsb : (Fin.last (m + 2)).succAbove q = q.castSucc := Fin.succAbove_last_apply q
    rw [Matrix.submatrix_apply, hsb, Matrix.updateRow_apply]
    by_cases hp : p = Fin.last (m + 1)
    · have h1 : a ≤ (Fin.last (m + 1)).castSucc := by
        rw [Fin.le_def]
        show m + 1 ≤ m + 1
        omega
      rw [if_pos hp, hp, Fin.succAbove_of_le_castSucc a _ h1, Pi.smul_apply, smul_eq_mul]
      show g ((Fin.last (m + 1)).succ).val q.val = s * f (m + 1) q.val
      rw [Fin.succ_last]
      exact hrow2 q.val q.isLt
    · have hplt : p.val < m + 1 := Fin.val_lt_last hp
      have h1 : p.castSucc < a := by
        rw [Fin.lt_def]
        show p.val < m + 1
        exact hplt
      rw [if_neg hp, Fin.succAbove_of_castSucc_lt a p h1]
      show g p.val q.val = f p.val q.val
      exact htop p.val q.val hplt q.isLt
  have hdSB : (G.submatrix (Fin.last (m + 2)).succAbove
      (Fin.last (m + 2)).succAbove).det = c * F.det := by
    rw [hSB, Matrix.det_updateRow_smul, Matrix.updateRow_eq_self]
  have hdSA : (G.submatrix a.succAbove (Fin.last (m + 2)).succAbove).det
      = s * F.det := by
    rw [hSA, Matrix.det_updateRow_smul, Matrix.updateRow_eq_self]
  have hGa : G a (Fin.last (m + 2)) = -(u * s) := hrow1z
  have hGb : G (Fin.last (m + 2)) (Fin.last (m + 2)) = u * c := hrow2z
  have hexp := Matrix.det_succ_column G (Fin.last (m + 2))
  have hzero : ∀ x ∈ (Finset.univ : Finset (Fin (m + 3))),
      x ∉ ({a, Fin.last (m + 2)} : Finset (Fin (m + 3))) →
      (-1 : ℝ) ^ (x.val + (Fin.last (m + 2)).val : ℕ) * G x (Fin.last (m + 2)) *
        (G.submatrix x.succAbove (Fin.last (m + 2)).succAbove).det = 0 := by
    intro x _ hx
    rw [Finset.mem_insert, Finset.mem_singleton] at hx
    push_neg at hx
    have h1 : x.val ≠ m + 1 := by
      intro h
      exact hx.1 (Fin.ext (by simpa [ha] using h))
    have h2 : x.val ≠ m + 2 := by
      intro h
      exact hx.2 (Fin.ext (by simpa [Fin.last] using h))
    have hlt : x.val < m + 1 := by
      have := x.isLt
      omega
    have hz : G x (Fin.last (m + 2)) = 0 := htopz x.val hlt
    rw [hz, mul_zero, zero_mul]
  rw [hexp, ← Finset.sum_subset
      (Finset.subset_univ ({a, Fin.last (m + 2)} : Finset (Fin (m + 3)))) hzero,
    Finset.sum_pair hab]
  have hsign1 : (-1 : ℝ) ^ (a.val + (Fin.last (m + 2)).val : ℕ) = -1 := by
    have h : (a.val + (Fin.last (m + 2)).val : ℕ) = 2 * (m + 1) + 1 := by
      show (m + 1) + (m + 2) = 2 * (m + 1) + 1
      ring
    rw [h]
    exact Odd.neg_one_pow ⟨m + 1, by ring⟩
  have hsign2 : (-1 : ℝ) ^
      ((Fin.last (m + 2)).val + (Fin.last (m + 2)).val : ℕ) = 1 := by
    have h : ((Fin.last (m + 2)).val + (Fin.last (m + 2)).val : ℕ) = 2 * (m + 2) := by
      show (m + 2) + (m + 2) = 2 * (m + 2)
      ring
    rw [h]
    exact Even.neg_one_pow ⟨m + 2, by ring⟩
  rw [hsign1, hsign2, hGa, hGb, hdSA, hdSB]
  linear_combination (u * F.det) * hcs

theorem numCoords_two_add (m : ℕ) : numCoords (m + 2) = m + 2 := by
  simp [numCoords]

/-- `jacobian_det` for `n = m + 2`, with the index type normalised to
`Fin (m + 2)`. -/
theorem jdet_eq (m : ℕ) (env : Var → ℝ) :
    jacobian_det (m + 2) env =
      (Matrix.of fun i j : Fin (m + 2) => entry (m + 2) env i.val j.val).det := by
  have h : numCoords (m + 2) = m + 2 := numCoords_two_add m
  have hsub : (Matrix.of fun i j : Fin (m + 2) => entry (m + 2) env i.val j.val)
      = (jacobianMatrix (m + 2) env).submatrix (finCongr h.symm) (finCongr h.symm) := by
    funext p q
    rfl
  rw [jacobian_det, hsub, Matrix.det_submatrix_equiv_self]

/-- The determinant recursion: splitting the last coordinate multiplies
the Jacobian determinant by the evaluated old last coordinate. -/
theorem jacobian_det_step (m : ℕ) (env : Var → ℝ) :
    jacobian_det (m + 3) env =
      Expr.eval env (chain (m + 1)) * jacobian_det (m + 2) env := by
  have e3 : jacobian_det (m + 3) env =
      (Matrix.of fun i j : Fin (m + 3) => entry (m + 3) env i.val j.val).det :=
    jdet_eq (m + 1) env
  have e2 : jacobian_det (m + 2) env =
      (Matrix.of fun i j : Fin (m + 2) => entry (m + 2) env i.val j.val).det :=
    jdet_eq m env
  rw [e3, e2]
  exact det_split m (fun i j => entry (m + 2) env i j) (fun i j => entry (m + 3) env i j)
    (Real.cos (env (Var.phi (m + 1)))) (Real.sin (env (Var.phi (m + 1))))
    (Expr.eval env (chain (m + 1)))
    (fun i j hi hj => entry_step_top m env hi hj)
    (fun i hi => entry_step_top_lastcol m env hi)
    (fun j hj => entry_step_cosRow m env hj)
    (entry_step_cosRow_lastcol m env)
    (fun j hj => entry_step_sinRow m env hj)
    (entry_step_sinRow_lastcol m env)
    (Real.cos_sq_add_sin_sq (env (Var.phi (m + 1))))

/-- The 2-dimensional (polar) Jacobian determinant is `r`. -/
theorem jacobian_det_two (env : Var → ℝ) : jacobian_det 2 env = env Var.r := by
  have e2 : jacobian_det 2 env =
      (Matrix.of fun i j : Fin 2 => entry 2 env i.val j.val).det := jdet_eq 0 env
  rw [e2, Matrix.det_fin_two]
  show entry 2 env 0 0 * entry 2 env 1 1 - entry 2 env 0 1 * entry 2 env 1 0 = env Var.r
  simp only [entry, jacobianEntries, cartesianToSpherical, symsList, phisList]
  norm_num [sphericalStep, Expr.diff, Expr.eval, List.range_succ]
  linear_combination (env Var.r) * Real.sin_sq_add_cos_sq (env (Var.phi 0))

/-- Closed form of the Jacobian determinant for every dimension `m + 2`:
`r^(m+1) * sin(phi0)^m * sin(phi1)^(m-1) * ... * sin(phi_{m-1})^1`. -/
theorem jacobian_det_closedForm (m : ℕ) (env : Var → ℝ) :
    jacobian_det (m + 2) env =
      env Var.r ^ (m + 1) *
        ∏ j in Finset.range m, Real.sin (env (Var.phi j)) ^ (m - j) := by
  induction m with
  | zero => simpa using jacobian_det_two env
  | succ k ih =>
      have hstep : jacobian_det (k + 3) env =
          Expr.eval env (chain (k + 1)) * jacobian_det (k + 2) env :=
        jacobian_det_step k env
      have hprod : ∏ j in Finset.range (k + 1), Real.sin (env (Var.phi j)) ^ (k + 1 - j)
          = (∏ j in Finset.range k, Real.sin (env (Var.phi j)) ^ (k - j)) *
            ∏ j in Finset.range (k + 1), Real.sin (env (Var.phi j)) := by
        have h1 : ∀ j ∈ Finset.range (k + 1),
            Real.sin (env (Var.phi j)) ^ (k + 1 - j)
              = Real.sin (env (Var.phi j)) ^ (k - j) * Real.sin (env (Var.phi j)) := by
          intro j hj
          rw [Finset.mem_range] at hj
          rw [← pow_succ]
          congr 1
          omega
        rw [Finset.prod_congr rfl h1, Finset.prod_mul_distrib,
          Finset.prod_range_succ fun j => Real.sin (env (Var.phi j)) ^ (k - j),
          Nat.sub_self, pow_zero, mul_one]
      have h2 : jacobian_det (k + 3) env =
          env Var.r ^ (k + 2) * ∏ j in Finset.range (k + 1),
            Real.sin (env (Var.phi j)) ^ (k + 1 - j) := by
        rw [hstep, ih, eval_chain, hprod]
        ring
      exact h2

/-- For `n = 1` the program computes with the same 2-component planar
parametrization as for `n = 2`, so the determinant is again `r`. -/
theorem jacobian_det_one (env : Var → ℝ) : jacobian_det 1 env = env Var.r := by
  have h : jacobian_det 1 env = jacobian_det 2 env := rfl
  rw [h, jacobian_det_two]

/-! ## The basic radial integrals -/

theorem jacobian_det_three (env : Var → ℝ) :
    jacobian_det 3 env = env Var.r ^ 2 * Real.sin (env (Var.phi 0)) := by
  have h := jacobian_det_closedForm 1 env
  simpa using h

theorem tendsto_self_mul_exp_neg_sq :
    Filter.Tendsto (fun t : ℝ => t * Real.exp (-t ^ 2)) Filter.atTop (nhds 0) := by
  have hg : Filter.Tendsto (fun t : ℝ => t * Real.exp (-t)) Filter.atTop (nhds 0) := by
    have := Real.tendsto_pow_mul_exp_neg_atTop_nhds_zero 1
    simpa using this
  apply squeeze_zero' (f := fun t : ℝ => t * Real.exp (-t ^ 2))
    (g := fun t : ℝ => t * Real.exp (-t))
  · filter_upwards [Filter.eventually_ge_atTop (0 : ℝ)] with t ht
    exact mul_nonneg ht (Real.exp_pos _).le
  · filter_upwards [Filter.eventually_ge_atTop (1 : ℝ)] with t ht
    have h1 : t ≤ t ^ 2 := by nlinarith
    have h2 : Real.exp (-t ^ 2) ≤ Real.exp (-t) := Real.exp_le_exp.mpr (by linarith)
    exact mul_le_mul_of_nonneg_left h2 (by linarith)
  · exact hg

theorem tendsto_exp_neg_sq :
    Filter.Tendsto (fun t : ℝ => Real.exp (-t ^ 2)) Filter.atTop (nhds 0) := by
  have h0 : Filter.Tendsto (fun t : ℝ => t ^ 2) Filter.atTop Filter.atTop :=
    Filter.tendsto_pow_atTop (two_ne_zero)
  have h1 : Filter.Tendsto (fun t : ℝ => -t ^ 2) Filter.atTop Filter.atBot :=
    Filter.tendsto_neg_atTop_atBot.comp h0
  exact Real.tendsto_exp_atBot.comp h1

theorem integrableOn_exp_neg_sq :
    IntegrableOn (fun t : ℝ => Real.exp (-t ^ 2)) (Set.Ioi 0) := by
  have h := (integrable_exp_neg_mul_sq (one_pos)).integrableOn (s := Set.Ioi (0 : ℝ))
  have hfun : (fun x : ℝ => Real.exp (-1 * x ^ 2)) = fun t : ℝ => Real.exp (-t ^ 2) := by
    funext t
    rw [neg_one_mul]
  rwa [hfun] at h

theorem integrableOn_exp_neg_sq_mul_self :
    IntegrableOn (fun t : ℝ => Real.exp (-t ^ 2) * t) (Set.Ioi 0) := by
  have h := (integrable_mul_exp_neg_mul_sq (one_pos)).integrableOn (s := Set.Ioi (0 : ℝ))
  have hfun : (fun x : ℝ => x * Real.exp (-1 * x ^ 2))
      = fun t : ℝ => Real.exp (-t ^ 2) * t := by
    funext t
    rw [neg_one_mul, mul_comm]
  rwa [hfun] at h

theorem integrableOn_exp_neg_sq_mul_sq :
    IntegrableOn (fun t : ℝ => Real.exp (-t ^ 2) * t ^ 2) (Set.Ioi 0) := by
  have h := integrableOn_rpow_mul_exp_neg_mul_sq (one_pos) (s := 2) (by norm_num)
  have hfun : (fun x : ℝ => x ^ (2 : ℝ) * Real.exp (-1 * x ^ 2))
      = fun t : ℝ => Real.exp (-t ^ 2) * t ^ 2 := by
    funext t
    rw [neg_one_mul, mul_comm]
    norm_num [Real.rpow_natCast]
  rwa [hfun] at h

/-- `∫ t in (0,∞), exp (-t^2) * t = 1/2`. -/
theorem integral_exp_neg_sq_mul_self :
    ∫ t in Set.Ioi (0 : ℝ), Real.exp (-t ^ 2) * t = 1 / 2 := by
  have hderiv : ∀ x ∈ Set.Ioi (0 : ℝ),
      HasDerivAt (fun t : ℝ => -(Real.exp (-t ^ 2) / 2)) (Real.exp (-x ^ 2) * x) x := by
    intro x _
    have h1 : HasDerivAt (fun t : ℝ => -t ^ 2) (-(2 * x)) x := by
      simpa using (hasDerivAt_pow 2 x).neg
    have h2 := (h1.exp.div_const 2).neg
    have hval : Real.exp (-x ^ 2) * x = -(Real.exp (-x ^ 2) * -(2 * x) / 2) := by
      ring
    rw [hval]
    exact h2
  have hcont : ContinuousWithinAt (fun t : ℝ => -(Real.exp (-t ^ 2) / 2))
      (Set.Ici 0) 0 := by
    apply Continuous.continuousWithinAt
    continuity
  have htend : Filter.Tendsto (fun t : ℝ => -(Real.exp (-t ^ 2) / 2))
      Filter.atTop (nhds 0) := by
    have := (tendsto_exp_neg_sq.div_const (2 : ℝ)).neg
    simpa using this
  have h := integral_Ioi_of_hasDerivAt_of_tendsto hcont hderiv
    integrableOn_exp_neg_sq_mul_self htend
  rw [h]
  norm_num

/-- `∫ t in (0,∞), exp (-t^2) * t^2 = sqrt π / 4`. -/
theorem integral_exp_neg_sq_mul_sq :
    ∫ t in Set.Ioi (0 : ℝ), Real.exp (-t ^ 2) * t ^ 2 = Real.sqrt π / 4 := by
  have hderiv : ∀ x ∈ Set.Ioi (0 : ℝ),
      HasDerivAt (fun t : ℝ => -(t * Real.exp (-t ^ 2) / 2))
        (Real.exp (-x ^ 2) * x ^ 2 - Real.exp (-x ^ 2) / 2) x := by
    intro x _
    have h1 : HasDerivAt (fun t : ℝ => -t ^ 2) (-(2 * x)) x := by
      simpa using (hasDerivAt_pow 2 x).neg
    have h2 : HasDerivAt (fun t : ℝ => t * Real.exp (-t ^ 2))
        (1 * Real.exp (-x ^ 2) + x * (Real.exp (-x ^ 2) * -(2 * x))) x :=
      (hasDerivAt_id x).mul h1.exp
    have h3 := (h2.div_const 2).neg
    have hval : Real.exp (-x ^ 2) * x ^ 2 - Real.exp (-x ^ 2) / 2 =
        -((1 * Real.exp (-x ^ 2) + x * (Real.exp (-x ^ 2) * -(2 * x))) / 2) := by
      ring
    rw [hval]
    exact h3
  have hcont : ContinuousWithinAt (fun t : ℝ => -(t * Real.exp (-t ^ 2) / 2))
      (Set.Ici 0) 0 := by
    apply Continuous.continuousWithinAt
    continuity
  have hint : IntegrableOn
      (fun x : ℝ => Real.exp (-x ^ 2) * x ^ 2 - Real.exp (-x ^ 2) / 2)
      (Set.Ioi 0) :=
    integrableOn_exp_neg_sq_mul_sq.sub (integrableOn_exp_neg_sq.div_const 2)
  have htend : Filter.Tendsto (fun t : ℝ => -(t * Real.exp (-t ^ 2) / 2))
      Filter.atTop (nhds 0) := by
    have := (tendsto_self_mul_exp_neg_sq.div_const (2 : ℝ)).neg
    simpa using this
  have h := integral_Ioi_of_hasDerivAt_of_tendsto hcont hderiv hint htend
  have hsplit : ∫ x in Set.Ioi (0 : ℝ),
      (Real.exp (-x ^ 2) * x ^ 2 - Real.exp (-x ^ 2) / 2)
      = (∫ x in Set.Ioi (0 : ℝ), Real.exp (-x ^ 2) * x ^ 2)
        - ∫ x in Set.Ioi (0 : ℝ), Real.exp (-x ^ 2) / 2 :=
    integral_sub integrableOn_exp_neg_sq_mul_sq (integrableOn_exp_neg_sq.div_const 2)
  have hgauss : ∫ x in Set.Ioi (0 : ℝ), Real.exp (-x ^ 2) / 2
      = Real.sqrt π / 4 := by
    rw [integral_div]
    have h1 : (fun x : ℝ => Real.exp (-x ^ 2)) = fun x : ℝ => Real.exp (-1 * x ^ 2) := by
      funext x
      rw [neg_one_mul]
    rw [h1, integral_gaussian_Ioi]
    rw [div_one]
    ring
  rw [hsplit, hgauss] at h
  norm_num at h
  linarith

/-! ## The integral values -/

theorem integrateAll_one :
    integrateAll (integrand 1) (limitsOfInt 1) (fun _ => 0) = π := by
  have hinner : ∀ env : Var → ℝ,
      integrateOne (integrand 1) (Var.r, 0, UpperBound.inf) env = 1 / 2 := by
    intro env
    show (∫ t in Set.Ioi (0 : ℝ), integrand 1 (Function.update env Var.r t)) = 1 / 2
    have hfun : (fun t : ℝ => integrand 1 (Function.update env Var.r t))
        = fun t : ℝ => Real.exp (-t ^ 2) * t := by
      funext t
      rw [integrand, jacobian_det_one, Function.update_same]
    rw [hfun, integral_exp_neg_sq_mul_self]
  show integrateOne (integrateOne (integrand 1) (Var.r, 0, UpperBound.inf))
      (Var.phi 0, 0, UpperBound.fin (2 * π)) (fun _ => 0) = π
  show (∫ u in (0 : ℝ)..(2 * π), integrateOne (integrand 1) (Var.r, 0, UpperBound.inf)
      (Function.update (fun _ => (0 : ℝ)) (Var.phi 0) u)) = π
  have hfun : (fun u : ℝ => integrateOne (integrand 1) (Var.r, 0, UpperBound.inf)
      (Function.update (fun _ => (0 : ℝ)) (Var.phi 0) u))
      = fun _ : ℝ => (1 : ℝ) / 2 := by
    funext u
    exact hinner _
  rw [hfun, intervalIntegral.integral_const, smul_eq_mul]
  ring

theorem doit_one : doit 1 = Real.sqrt π := by
  show Real.sqrt (integrateAll (integrand 1) (limitsOfInt 1) fun _ => 0) = Real.sqrt π
  rw [integrateAll_one]

theorem doit_two : doit 2 = π := by
  show integrateAll (integrand 2) (limitsOfInt 2) (fun _ => 0) = π
  have h : integrateAll (integrand 2) (limitsOfInt 2) (fun _ => 0)
      = integrateAll (integrand 1) (limitsOfInt 1) (fun _ => 0) := rfl
  rw [h, integrateAll_one]

theorem integrateAll_three :
    integrateAll (integrand 3) (limitsOfInt 3) (fun _ => 0) = π * Real.sqrt π := by
  have hinner : ∀ env : Var → ℝ,
      integrateOne (integrand 3) (Var.r, 0, UpperBound.inf) env
        = Real.sin (env (Var.phi 0)) * (Real.sqrt π / 4) := by
    intro env
    show (∫ t in Set.Ioi (0 : ℝ), integrand 3 (Function.update env Var.r t))
        = Real.sin (env (Var.phi 0)) * (Real.sqrt π / 4)
    have hfun : (fun t : ℝ => integrand 3 (Function.update env Var.r t))
        = fun t : ℝ => Real.sin (env (Var.phi 0)) * (Real.exp (-t ^ 2) * t ^ 2) := by
      funext t
      rw [integrand, jacobian_det_three, Function.update_same,
        Function.update_noteq (by decide : Var.phi 0 ≠ Var.r)]
      ring
    rw [hfun, integral_mul_left, integral_exp_neg_sq_mul_sq]
  have hmid : ∀ env : Var → ℝ,
      integrateOne (integrateOne (integrand 3) (Var.r, 0, UpperBound.inf))
        (Var.phi 1, 0, UpperBound.fin (2 * π)) env
        = 2 * π * (Real.sin (env (Var.phi 0)) * (Real.sqrt π / 4)) := by
    intro env
    show (∫ u in (0 : ℝ)..(2 * π), integrateOne (integrand 3) (Var.r, 0, UpperBound.inf)
        (Function.update env (Var.phi 1) u))
        = 2 * π * (Real.sin (env (Var.phi 0)) * (Real.sqrt π / 4))
    have hfun : (fun u : ℝ => integrateOne (integrand 3) (Var.r, 0, UpperBound.inf)
        (Function.update env (Var.phi 1) u))
        = fun _ : ℝ => Real.sin (env (Var.phi 0)) * (Real.sqrt π / 4) := by
      funext u
      rw [hinner, Function.update_noteq (by decide : Var.phi 0 ≠ Var.phi 1)]
    rw [hfun, intervalIntegral.integral_const, smul_eq_mul]
    ring
  show (∫ u in (0 : ℝ)..π,
      integrateOne (integrateOne (integrand 3) (Var.r, 0, UpperBound.inf))
        (Var.phi 1, 0, UpperBound.fin (2 * π))
        (Function.update (fun _ => (0 : ℝ)) (Var.phi 0) u)) = π * Real.sqrt π
  have hfun : (fun u : ℝ =>
      integrateOne (integrateOne (integrand 3) (Var.r, 0, UpperBound.inf))
        (Var.phi 1, 0, UpperBound.fin (2 * π))
        (Function.update (fun _ => (0 : ℝ)) (Var.phi 0) u))
      = fun u : ℝ => 2 * π * (Real.sqrt π / 4) * Real.sin u := by
    funext u
    rw [hmid, Function.update_same]
    ring
  rw [hfun, intervalIntegral.integral_const_mul, integral_sin, Real.cos_zero, Real.cos_pi]
  ring

theorem doit_three : doit 3 = π * Real.sqrt π := by
  show integrateAll (integrand 3) (limitsOfInt 3) (fun _ => 0) = π * Real.sqrt π
  exact integrateAll_three

/-! ## Analytic correctness of the symbolic derivative -/

/-- The symbolic derivative computed by `Expr.diff` is the true partial
derivative of the denotation. -/
theorem hasDerivAt_eval (e : Expr) (v : Var) (env : Var → ℝ) (t : ℝ) :
    HasDerivAt (fun s : ℝ => Expr.eval (Function.update env v s) e)
      (Expr.eval (Function.update env v t) (e.diff v)) t := by
  induction e with
  | const z =>
      simpa [Expr.eval, Expr.diff] using hasDerivAt_const t ((z : ℤ) : ℝ)
  | var w =>
      by_cases h : w = v
      · subst h
        simp only [Expr.eval, Expr.diff, if_pos rfl, Function.update_same]
        simpa [Expr.eval] using hasDerivAt_id t
      · simp only [Expr.eval, Expr.diff, if_neg h, Function.update_noteq h]
        simpa [Expr.eval] using hasDerivAt_const t (env w)
  | add a b iha ihb =>
      simpa [Expr.eval, Expr.diff] using iha.add ihb
  | mul a b iha ihb =>
      simpa [Expr.eval, Expr.diff] using iha.mul ihb
  | neg a iha =>
      simpa [Expr.eval, Expr.diff] using iha.neg
  | sin a iha =>
      simpa [Expr.eval, Expr.diff] using iha.sin
  | cos a iha =>
      have h := iha.cos
      simp only [Expr.eval, Expr.diff]
      convert h using 1
      ring

/-- `entry` unfolded to the symbolic derivative, for every accepted
dimension. -/
theorem entry_eq_any (n : ℕ) (hn : 1 ≤ n) (env : Var → ℝ) {i j : ℕ}
    (hi : i < numCoords n) (hj : j < numCoords n) :
    entry n env i j = Expr.eval env ((coordAt n i).diff (symVar n j)) := by
  match n, hn with
  | 1, _ =>
      have h2 : entry 2 env i j = Expr.eval env ((coordAt 2 i).diff (symVar 2 j)) :=
        entry_eq 0 env (by exact hi) (by exact hj)
      exact h2
  | (m + 2), _ =>
      exact entry_eq m env (by simpa [numCoords] using hi) (by simpa [numCoords] using hj)

/-! ## The parametrization as described by the spec -/

/-- Modelled from the spec (§4.1): one step takes the *last previously
written* coordinate `old`, replaces it by `old * cos(phi_i)`, and appends
`old * sin(phi_i)`. -/
def specStep (xs : List Expr) (i : ℕ) : List Expr :=
  let old := xs.getLastD (Expr.const 0)
  xs.dropLast ++ [Expr.mul old (Expr.cos (Expr.var (Var.phi i))),
    Expr.mul old (Expr.sin (Expr.var (Var.phi i)))]

/-- Modelled from the spec (§4.1): start from
`[r*cos(phi0), r*sin(phi0)]` and process the angles `i = 1 .. n-2` in
order with `specStep`. -/
def specParametrization (n : ℕ) : List Expr :=
  (List.range' 1 (n - 2)).foldl specStep
    [Expr.mul (Expr.var Var.r) (Expr.cos (Expr.var (Var.phi 0))),
     Expr.mul (Expr.var Var.r) (Expr.sin (Expr.var (Var.phi 0)))]

theorem specStep_concat (l : List Expr) (e : Expr) (i : ℕ) :
    specStep (l ++ [e]) i =
      (l ++ [Expr.mul e (Expr.cos (Expr.var (Var.phi i)))]) ++
        [Expr.mul e (Expr.sin (Expr.var (Var.phi i)))] := by
  unfold specStep
  dsimp only
  rw [List.getLastD_concat, List.dropLast_concat, List.append_assoc]
  rfl

theorem specParametrization_closedForm (m : ℕ) :
    specParametrization (m + 2) =
      (List.range (m + 1)).map xExpr ++ [chain (m + 1)] := by
  induction m with
  | zero => rfl
  | succ k ih =>
    have h1 : specParametrization (k + 3) =
        specStep (specParametrization (k + 2)) (k + 1) := by
      show (List.range' 1 (k + 1)).foldl specStep _ = _
      rw [List.range'_1_concat, List.foldl_append, Nat.add_comm 1 k]
      rfl
    rw [h1, ih, specStep_concat, List.range_succ (k + 1)]
    simp only [List.map_append, List.map_cons, List.map_nil]
    rfl

/-- The source loop agrees with the spec description for every `n`. -/
theorem cartesianToSpherical_eq_spec (n : ℕ) :
    cartesianToSpherical n = specParametrization n := by
  match n with
  | 0 => rfl
  | 1 => rfl
  | (m + 2) => rw [cartesianToSpherical_closedForm, specParametrization_closedForm]

/-! ## Lengths and limits -/

theorem phisList_length (n : ℕ) (hn : 1 ≤ n) :
    (phisList n).length = if n = 1 then 1 else n - 1 := by
  match n, hn with
  | 1, _ => rfl
  | (m + 2), _ => simp [phisList]

/-- The state of the `_cartesian_to_spherical` loop after `k` iterations
(the loop of `cartesianToSpherical n` runs it for `k = n - 2`
iterations). -/
def sphericalLoopState (k : ℕ) : List Expr :=
  (List.range' 1 k).foldl sphericalStep
    [Expr.mul (Expr.var Var.r) (Expr.cos (Expr.var (Var.phi 0))),
     Expr.mul (Expr.var Var.r) (Expr.sin (Expr.var (Var.phi 0)))]

theorem cartesianToSpherical_eq_loopState (n : ℕ) :
    cartesianToSpherical n = sphericalLoopState (n - 2) := rfl

theorem sphericalStep_length (xs : List Expr) (i : ℕ) :
    (sphericalStep xs i).length = xs.length + 1 := by
  simp [sphericalStep]

theorem sphericalLoopState_length (k : ℕ) :
    (sphericalLoopState k).length = k + 2 := by
  induction k with
  | zero => rfl
  | succ j ih =>
      show ((List.range' 1 (j + 1)).foldl sphericalStep _).length = j + 3
      rw [List.range'_1_concat, List.foldl_append, List.foldl_cons, List.foldl_nil,
        sphericalStep_length]
      exact congrArg (· + 1) ih

theorem limitsOfInt_two_add (m : ℕ) :
    limitsOfInt (m + 2) =
      (Var.r, 0, UpperBound.inf) ::
        (Var.phi m, 0, UpperBound.fin (2 * π)) ::
          (List.range m).map fun j => (Var.phi j, 0, UpperBound.fin π) := by
  have hlast : ((List.range (m + 1)).map Var.phi).getLastD (Var.phi 0) = Var.phi m := by
    rw [List.range_succ, List.map_append]
    exact List.getLastD_concat _ _ _
  have hdrop : ((List.range (m + 1)).map Var.phi).dropLast = (List.range m).map Var.phi := by
    rw [List.range_succ, List.map_append]
    exact List.dropLast_concat
  unfold limitsOfInt
  rw [phisList_two_add, hlast, hdrop, List.map_map]
  rfl

/-! ## Sum of squares of the parametrization -/

theorem sum_sq_aux (env : Var → ℝ) :
    ∀ k : ℕ, (((List.range k).map fun j => Expr.eval env (xExpr j) ^ 2).sum)
      + Expr.eval env (chain k) ^ 2 = env Var.r ^ 2
  | 0 => by simp [chain, Expr.eval]
  | k + 1 => by
      have ih := sum_sq_aux env k
      have hx : Expr.eval env (xExpr k) ^ 2 + Expr.eval env (chain (k + 1)) ^ 2
          = Expr.eval env (chain k) ^ 2 := by
        show (Expr.eval env (chain k) * Real.cos (env (Var.phi k))) ^ 2 +
            (Expr.eval env (chain k) * Real.sin (env (Var.phi k))) ^ 2
          = Expr.eval env (chain k) ^ 2
        linear_combination Expr.eval env (chain k) ^ 2 *
          Real.sin_sq_add_cos_sq (env (Var.phi k))
      rw [List.range_succ, List.map_append, List.sum_append]
      simp only [List.map_cons, List.map_nil, List.sum_cons, List.sum_nil, add_zero]
      linarith [ih, hx]

theorem sum_sq_closed (m : ℕ) (env : Var → ℝ) :
    ((((List.range (m + 1)).map xExpr ++ [chain (m + 1)]).map
      fun e => Expr.eval env e ^ 2).sum) = env Var.r ^ 2 := by
  rw [List.map_append, List.sum_append, List.map_map]
  simp only [List.map_cons, List.map_nil, List.sum_cons, List.sum_nil, add_zero]
  exact sum_sq_aux env (m + 1)

/-! ## The claims -/

/-- C1 (counterexample): the claim "doit returns π² for n = 3" is false:
the program's integral for n = 3 evaluates to π^(3/2) = π·√π, which is
not π². -/
theorem C1_counterexample : doit 3 ≠ π ^ 2 := by
  rw [doit_three]
  intro h
  rw [pow_two] at h
  have hpi : (π : ℝ) ≠ 0 := ne_of_gt Real.pi_pos
  have hs : Real.sqrt π = π := mul_left_cancel₀ hpi h
  have hsq : Real.sqrt π ^ 2 = π := Real.sq_sqrt (le_of_lt Real.pi_pos)
  rw [hs] at hsq
  nlinarith [Real.pi_gt_three, hsq]

/-- C1 (amended): compute-integral-value (doit) returns √π when the
instance was constructed with n = 1 (square-rooting the raw nested
integral computed over the 2-component planar embedding), π when
constructed with n = 2, and π^(3/2) = π·√π when constructed with
n = 3. -/
theorem C1_amended_doit_values :
    doit 1 = Real.sqrt π ∧ doit 2 = π ∧ doit 3 = π * Real.sqrt π :=
  ⟨doit_one, doit_two, doit_three⟩

/-- C2 (counterexample): with the exponent n the claimed closed form
fails already at n = 2: there the determinant is algebraically r, which
is 2 at the assignment sending every variable to 2, while the claimed
r^n = r² is 4. -/
theorem C2_counterexample : jacobian_det 2 (fun _ => 2) ≠ (2 : ℝ) ^ 2 := by
  rw [jacobian_det_two]
  norm_num

/-- C2 (amended): for every n ≥ 2 compute-simplified-determinant
(jacobian_det) returns an expression algebraically equal to
r^(n-1) · sin^(n-2)(phi0) · sin^(n-3)(phi1) · … · sin^0(phi_{n-3}), and
for n = 1 it returns an expression algebraically equal to r. -/
theorem C2_amended_det_closed_form :
    (∀ n : ℕ, 2 ≤ n → ∀ env : Var → ℝ,
      jacobian_det n env = env Var.r ^ (n - 1) *
        ∏ j in Finset.range (n - 2), Real.sin (env (Var.phi j)) ^ (n - 2 - j)) ∧
    ∀ env : Var → ℝ, jacobian_det 1 env = env Var.r := by
  constructor
  · intro n hn env
    obtain ⟨m, rfl⟩ : ∃ m, n = m + 2 := ⟨n - 2, by omega⟩
    have h := jacobian_det_closedForm m env
    simpa using h
  · exact jacobian_det_one

theorem C2_witness :
    (2 : ℕ) ≤ 3 ∧ jacobian_det 3 (fun _ => 1) =
      (1 : ℝ) ^ (3 - 1) * ∏ j in Finset.range (3 - 2), Real.sin (1 : ℝ) ^ (3 - 2 - j) :=
  ⟨by norm_num, C2_amended_det_closed_form.1 3 (by norm_num) fun _ => 1⟩

/-- C3: compute-simplified-determinant (jacobian_det) returns (an
expression algebraically equal to) the radial symbol r for n = 1, r for
n = 2, and r²·sin(phi0) for n = 3. -/
theorem C3_det_small_dims :
    (∀ env : Var → ℝ, jacobian_det 1 env = env Var.r) ∧
    (∀ env : Var → ℝ, jacobian_det 2 env = env Var.r) ∧
    ∀ env : Var → ℝ, jacobian_det 3 env = env Var.r ^ 2 * Real.sin (env (Var.phi 0)) :=
  ⟨jacobian_det_one, jacobian_det_two, jacobian_det_three⟩

/-- C4: for every n ≥ 1 the parametrization equals the sequence the spec
describes (start from [r·cos(phi0), r·sin(phi0)]; for i = 1..n-2 replace
the last previously written coordinate old by old·cos(phi_i) and append
old·sin(phi_i)); consequently it has exactly n components for n ≥ 2 and
exactly 2 components for n = 1. -/
theorem C4_parametrization (n : ℕ) (hn : 1 ≤ n) :
    cartesianToSpherical n = specParametrization n ∧
    (cartesianToSpherical n).length = if n = 1 then 2 else n := by
  refine ⟨cartesianToSpherical_eq_spec n, ?_⟩
  match n, hn with
  | 1, _ => rfl
  | (m + 2), _ =>
      rw [cartesianToSpherical_length, if_neg (by omega : ¬ m + 2 = 1)]

theorem C4_witness :
    1 ≤ 4 ∧ (cartesianToSpherical 4 = specParametrization 4 ∧
      (cartesianToSpherical 4).length = if 4 = 1 then 2 else 4) :=
  ⟨by norm_num, C4_parametrization 4 (by norm_num)⟩

/-- C5: for every n ≥ 1, compute-Jacobian (jacobian) returns the matrix
of exact partial derivatives of each parametrization component with
respect to each variable of the ordered list [r, phi0, …, phi_{n-2}]
(for n = 1 the list [r, phi0]), rows indexed by components and columns
by variables, 2×2 for n = 1 and n×n for n ≥ 2. -/
theorem C5_jacobian (n : ℕ) (hn : 1 ≤ n) :
    (jacobianEntries n).length = numCoords n ∧
    (∀ row ∈ jacobianEntries n, row.length = numCoords n) ∧
    (n = 1 → numCoords n = 2) ∧
    (2 ≤ n → numCoords n = n) ∧
    ∀ (i j : ℕ) (env : Var → ℝ), i < numCoords n → j < numCoords n →
      HasDerivAt (fun t : ℝ => Expr.eval (Function.update env (symVar n j) t) (coordAt n i))
        (entry n env i j) (env (symVar n j)) := by
  refine ⟨?_, ?_, ?_, ?_, ?_⟩
  · unfold jacobianEntries
    rw [List.length_map]
    match n, hn with
    | 1, _ => rfl
    | (m + 2), _ => rw [cartesianToSpherical_length, numCoords_two_add]
  · intro row hrow
    unfold jacobianEntries at hrow
    rw [List.mem_map] at hrow
    obtain ⟨c, hc, rfl⟩ := hrow
    rw [List.length_map]
    match n, hn with
    | 1, _ => rfl
    | (m + 2), _ => rw [symsList_length, numCoords_two_add]
  · intro h1
    subst h1
    rfl
  · intro h2
    unfold numCoords
    rw [if_neg (by omega)]
  · intro i j env hi hj
    rw [entry_eq_any n hn env hi hj]
    have h := hasDerivAt_eval (coordAt n i) (symVar n j) env (env (symVar n j))
    rw [Function.update_eq_self] at h
    exact h

theorem C5_witness :
    1 ≤ 2 ∧ HasDerivAt
      (fun t : ℝ => Expr.eval (Function.update (fun _ => (0 : ℝ)) (symVar 2 0) t)
        (coordAt 2 0))
      (entry 2 (fun _ => 0) 0 0) ((0 : ℝ)) :=
  ⟨by norm_num, (C5_jacobian 2 (by norm_num)).2.2.2.2 0 0 (fun _ => 0) (by decide) (by decide)⟩

theorem limitsOfInt_map_fst (m : ℕ) :
    ((limitsOfInt (m + 2)).map fun l => l.1)
      = Var.r :: Var.phi m :: (List.range m).map Var.phi := by
  rw [limitsOfInt_two_add]
  simp only [List.map_cons, List.map_map]
  rfl

/-- C6: for every n ≥ 1, compute-integral-value (doit) hands the
integration routine exactly one limit triple per variable, in this
order: r over [0, ∞) first, then the last angular symbol over the full
rotation [0, 2π], then the remaining angular symbols first-to-second-last
over [0, π]; the integrand is exp(-r²) times the simplified Jacobian
determinant. -/
theorem C6_limits (n : ℕ) (hn : 1 ≤ n) :
    limitsOfInt n =
      (Var.r, 0, UpperBound.inf) ::
        (Var.phi ((phisList n).length - 1), 0, UpperBound.fin (2 * π)) ::
          ((List.range ((phisList n).length - 1)).map fun j =>
            (Var.phi j, 0, UpperBound.fin π)) ∧
    (limitsOfInt n).length = 1 + (phisList n).length ∧
    List.Perm ((limitsOfInt n).map fun l => l.1) (symsList n) ∧
    integrand n = fun env => Real.exp (-(env Var.r) ^ 2) * jacobian_det n env := by
  match n, hn with
  | 1, _ => exact ⟨rfl, rfl, List.Perm.refl _, rfl⟩
  | (m + 2), _ =>
      have hlen : (phisList (m + 2)).length = m + 1 := by
        rw [phisList_two_add]
        simp
      refine ⟨?_, ?_, ?_, rfl⟩
      · rw [hlen, limitsOfInt_two_add]
        simp
      · rw [hlen, limitsOfInt_two_add]
        simp
        omega
      · rw [limitsOfInt_map_fst]
        show List.Perm (Var.r :: (Var.phi m :: (List.range m).map Var.phi)) (symsList (m + 2))
        unfold symsList
        rw [phisList_two_add]
        apply List.Perm.cons
        rw [List.range_succ, List.map_append]
        exact (List.perm_append_singleton _ _).symm

theorem C6_witness :
    1 ≤ 3 ∧ limitsOfInt 3 =
      (Var.r, 0, UpperBound.inf) ::
        (Var.phi ((phisList 3).length - 1), 0, UpperBound.fin (2 * π)) ::
          ((List.range ((phisList 3).length - 1)).map fun j =>
            (Var.phi j, 0, UpperBound.fin π)) :=
  ⟨by norm_num, (C6_limits 3 (by norm_num)).1⟩

/-- C7: construction (initGaussian, modelling __init__) raises the
invalid-dimension error if and only if the supplied dimension is less
than 1; for every n ≥ 1 construction succeeds and produces the state the
operations run on (so the error, when raised, precedes every
operation). -/
theorem C7_init (z : ℤ) :
    (initGaussian z = none ↔ z < 1) ∧
    (1 ≤ z → initGaussian z = some ⟨z.toNat, Var.r, phisList z.toNat⟩) := by
  constructor
  · unfold initGaussian
    by_cases h : z < 1
    · simp [h]
    · simp [h]
  · intro h
    unfold initGaussian
    rw [if_neg (by omega)]

theorem C7_witness :
    (initGaussian 2 = none ↔ (2 : ℤ) < 1) ∧
    ((1 : ℤ) ≤ 2 →
      initGaussian 2 = some ⟨(2 : ℤ).toNat, Var.r, phisList (2 : ℤ).toNat⟩) :=
  C7_init 2

/-- C8: the state (n, r, phis) fixed at construction is never changed by
the operations (their state-passing forms return the state unchanged),
phis holds exactly n-1 angular symbols for n ≥ 2 and exactly one for
n = 1, and invoking doit twice on the same instance returns identical
results. -/
theorem C8_immutable (z : ℤ) (s : GaussianState) (h : initGaussian z = some s) :
    (s.phis.length = if s.n = 1 then 1 else s.n - 1) ∧
    (∀ env : Var → ℝ, (jacobianDetMethod s env).2 = s) ∧
    (doitMethod s).2 = s ∧
    (doitMethod (doitMethod s).2).1 = (doitMethod s).1 := by
  have hz : ¬ z < 1 := by
    intro hlt
    rw [initGaussian, if_pos hlt] at h
    exact Option.noConfusion h
  rw [initGaussian, if_neg hz] at h
  have hs : s = ⟨z.toNat, Var.r, phisList z.toNat⟩ := (Option.some.inj h).symm
  subst hs
  refine ⟨?_, fun _ => rfl, rfl, rfl⟩
  show (phisList z.toNat).length = if z.toNat = 1 then 1 else z.toNat - 1
  exact phisList_length z.toNat (by omega)

theorem C8_witness :
    initGaussian 3 = some ⟨3, Var.r, [Var.phi 0, Var.phi 1]⟩ ∧
    ((⟨3, Var.r, [Var.phi 0, Var.phi 1]⟩ : GaussianState).phis.length =
      if (3 : ℕ) = 1 then 1 else 3 - 1) ∧
    (doitMethod ⟨3, Var.r, [Var.phi 0, Var.phi 1]⟩).2 =
      ⟨3, Var.r, [Var.phi 0, Var.phi 1]⟩ :=
  ⟨by decide,
    (C8_immutable 3 ⟨3, Var.r, [Var.phi 0, Var.phi 1]⟩ (by decide)).1,
    (C8_immutable 3 ⟨3, Var.r, [Var.phi 0, Var.phi 1]⟩ (by decide)).2.2.1⟩

/-- C9: for every accepted n, every sequence access is in bounds: phis
is non-empty (so its first and last elements exist), in the
parametrization loop the index i is a valid index of the coordinate list
at the start of iteration i, and for n = 1 the single angular symbol
phi0 is the one receiving the [0, 2π] limit. -/
theorem C9_safety (n : ℕ) (hn : 1 ≤ n) :
    phisList n ≠ [] ∧
    (∀ i : ℕ, 1 ≤ i → i ≤ n - 2 → i < (sphericalLoopState (i - 1)).length) ∧
    limitsOfInt 1 =
      [(Var.r, 0, UpperBound.inf), (Var.phi 0, 0, UpperBound.fin (2 * π))] := by
  refine ⟨?_, ?_, rfl⟩
  · match n, hn with
    | 1, _ => simp [phisList]
    | (m + 2), _ =>
        rw [phisList_two_add]
        simp
  · intro i h1 h2
    rw [sphericalLoopState_length]
    omega

theorem C9_witness :
    1 ≤ 5 ∧ phisList 5 ≠ [] ∧ 2 < (sphericalLoopState 1).length :=
  ⟨by norm_num, (C9_safety 5 (by norm_num)).1,
    (C9_safety 5 (by norm_num)).2.1 2 (by norm_num) (by norm_num)⟩

/-- C10: for every n ≥ 1, the sum of the squares of all parametrization
components is algebraically equal to r², so the parametrization describes
a point at Euclidean distance r from the origin. -/
theorem C10_sum_sq (n : ℕ) (hn : 1 ≤ n) (env : Var → ℝ) :
    ((cartesianToSpherical n).map fun e => Expr.eval env e ^ 2).sum
      = env Var.r ^ 2 := by
  match n, hn with
  | 1, _ => exact sum_sq_closed 0 env
  | (m + 2), _ =>
      rw [cartesianToSpherical_closedForm]
      exact sum_sq_closed m env

theorem C10_witness :
    1 ≤ 3 ∧ ((cartesianToSpherical 3).map fun e => Expr.eval (fun _ => 1) e ^ 2).sum
      = (1 : ℝ) ^ 2 :=
  ⟨by norm_num, C10_sum_sq 3 (by norm_num) fun _ => 1⟩

end GaussianIntegralPy
